import Mathlib

/-! vault-ai: text extraction and token-aware chunking

A shallow embedding of `chunk/fileprocessing.go` (package `chunk`) and a
verification of its chunking loop, its archive extraction loops and the
plain-text decoding branch.

Conventions of the embedding.

* Go `string` and `[]byte` values are Lean `String`s; the conversion
  `string(b)` copies the bytes unchanged and is the identity here.
* Go `int` is `Nat`: every integer of the chunker is a slice index or a sum
  bounded by `MaxTokensPerChunk`, so no value is negative or overflows.
* A Go `(value, error)` result is an `Except String value`, the error being
  its message.
* The sentence tokenizer, the tiktoken encoder, the charset detector, the
  document converters and `strings.ToLower` are libraries outside the
  repository; they enter as arguments (the sentence texts, a token counting
  function, ...), and every theorem holds for all of them.
-/

deriving instance DecidableEq for Except

namespace VaultAI

/-! ## Data model -/

/-- The record `Chunk` of `fileprocessing.go`. -/
structure Chunk where
  Start : Nat
  End : Nat
  Title : String
  Text : String
  deriving DecidableEq, Repr

/-- The constant `MaxTokensPerChunk` of `fileprocessing.go`. -/
abbrev MaxTokensPerChunk : Nat := 1500

/-- The constant `EmbeddingModel` of `fileprocessing.go`. -/
def EmbeddingModel : String := "text-embedding-ada-002"

/-! ## `strings.TrimSpace` -/

/-- White space as Go's `unicode.IsSpace` defines it: the Latin-1 spaces
`\t \n \v \f \r`, the blank, U+0085 and U+00A0, and the other code points of
category Z or property Pattern_White_Space. -/
def isSpace (c : Char) : Bool :=
  c = '\t' || c = '\n' || c = '\x0b' || c = '\x0c' || c = '\r' || c = ' ' ||
  c = '\u0085' || c = '\u00a0' || c = '\u1680' ||
  (0x2000 ≤ c.toNat && c.toNat ≤ 0x200a) ||
  c = '\u2028' || c = '\u2029' || c = '\u202f' || c = '\u205f' || c = '\u3000'

/-- Drop the leading and the trailing white space of a list of characters. -/
def trimChars (l : List Char) : List Char :=
  ((l.dropWhile isSpace).reverse.dropWhile isSpace).reverse

/-- Go's `strings.TrimSpace`: the string without its leading and trailing
white space. -/
def TrimSpace (s : String) : String := ⟨trimChars s.data⟩

/-! ## `CreateChunks` -/

/-- The three variables of one window of `CreateChunks`: `tokenCount`,
`chunkText` and `chunkSentences`. -/
structure Window where
  tokenCount : Nat
  chunkText : String
  chunkSentences : Nat
  deriving DecidableEq, Repr

/-- The inner loop of `CreateChunks`,
`for i := chunkStart; i < len(sentences) && tokenCount < MaxTokensPerChunk; i++`,
run over the sentences from the loop index on (`sentences[i:]`): an oversized
sentence is passed over (`continue`), a sentence that fits the remaining
budget is appended, and the first one that does not ends the loop (`break`). -/
def innerLoop (maxTokens : Nat) (count : String → Nat) : List String → Window → Window
  | [], w => w
  | sentence :: rest, w =>
    if w.tokenCount < maxTokens then
      if count sentence > maxTokens then
        innerLoop maxTokens count rest w
      else if w.tokenCount + count sentence ≤ maxTokens then
        innerLoop maxTokens count rest
          { tokenCount := w.tokenCount + count sentence
            chunkText := w.chunkText ++ " " ++ sentence
            chunkSentences := w.chunkSentences + 1 }
      else w
    else w

/-- The window that starts at sentence `chunkStart`: the inner loop from
`tokenCount := 0`, `chunkText := ""`, `chunkSentences := 0`. -/
def window (maxTokens : Nat) (count : String → Nat) (sentences : List String)
    (chunkStart : Nat) : Window :=
  innerLoop maxTokens count (sentences.drop chunkStart)
    { tokenCount := 0, chunkText := "", chunkSentences := 0 }

/-- The stride of a window: `chunkSentences / 5`, and 1 when that is 0. -/
def sentenceStride (w : Window) : Nat :=
  if w.chunkSentences / 5 = 0 then 1 else w.chunkSentences / 5

/-- The variables of the outer loop of `CreateChunks`. -/
structure LoopState where
  chunkStart : Nat
  chunks : List Chunk
  deriving DecidableEq, Repr

/-- One iteration of the outer loop of `CreateChunks`: build the window at
`chunkStart`, append its chunk when the trimmed text is not empty, and move
`chunkStart` forward by the stride. -/
def outerBody (maxTokens : Nat) (count : String → Nat) (sentences : List String)
    (title : String) (st : LoopState) : LoopState :=
  let w := window maxTokens count sentences st.chunkStart
  let trimmedText := TrimSpace w.chunkText
  { chunkStart := st.chunkStart + sentenceStride w
    chunks :=
      if trimmedText.length > 0 then
        st.chunks ++ [{ Start := st.chunkStart
                        End := st.chunkStart + w.tokenCount
                        Title := title
                        Text := trimmedText }]
      else st.chunks }

/-- The outer loop `for chunkStart < len(sentences)` with an iteration budget
`fuel`; when the budget is used up the state is returned as it is.
`CreateChunks` runs it with one unit per sentence; `outerLoop_iterate` shows
that such a budget is never used up while the loop condition holds, so the
result is that of the unbounded loop. -/
def outerLoop (maxTokens : Nat) (count : String → Nat) (sentences : List String)
    (title : String) : Nat → LoopState → LoopState
  | 0, st => st
  | fuel + 1, st =>
    if st.chunkStart < sentences.length then
      outerLoop maxTokens count sentences title fuel
        (outerBody maxTokens count sentences title st)
    else st

/-- The function `CreateChunks` with the token budget as an argument.
`tiktoken` is the result of `tke.EncodingForModel(EmbeddingModel)`, a token
counting function (`len(tiktoken.Encode(sentence, nil, nil))`) or an error;
`sentences` are the texts of `tokenizer.Tokenize(fileContent)`. -/
def createChunksWith (maxTokens : Nat) (tiktoken : Except String (String → Nat))
    (sentences : List String) (title : String) : Except String (List Chunk) :=
  match tiktoken with
  | .error err => .error ("getEncoding: " ++ err)
  | .ok count =>
    let final := outerLoop maxTokens count sentences title sentences.length
      { chunkStart := 0, chunks := [] }
    if final.chunks.length = 0 then .error "no chunks created"
    else .ok final.chunks

/-- The function `CreateChunks` of `fileprocessing.go`: the budget is the
constant `MaxTokensPerChunk`. -/
def CreateChunks (tiktoken : Except String (String → Nat)) (sentences : List String)
    (title : String) : Except String (List Chunk) :=
  createChunksWith MaxTokensPerChunk tiktoken sentences title

/-! ## Archive extraction -/

/-- One entry of `zipReader.File`: its name, whether `file.FileInfo().IsDir()`
holds, and the result of `file.Open()`, which is an error or a stream whose
`ioutil.ReadAll` is an error or the entry's bytes. -/
structure ZipEntry where
  Name : String
  IsDir : Bool
  Open : Except String (Except String String)

/-- The body of `ExtractFilesFromZip` from the declaration of `fileContents`
and `fileNames` to its final `return` (lines 63 to 96): the loop
`for _, file := range zipReader.File` over the entries still to visit, with
the two slices built so far; the function's result is that of the loop from
two empty slices. The lines before it, which read the upload and open the
archive, declare `zipReader` twice and call a method `f.Size()` that
`multipart.File` does not have; they are left out of the embedding, and the
entries of the opened archive are the loop's argument. -/
def extractLoop : List ZipEntry → List String → List String →
    Except String (List String × List String)
  | [], fileContents, fileNames => .ok (fileContents, fileNames)
  | file :: rest, fileContents, fileNames =>
    if file.IsDir then extractLoop rest fileContents fileNames
    else
      match file.Open with
      | .error err => .error err
      | .ok currentFile =>
        match currentFile with
        | .error err => .error err
        | .ok contentBytes =>
          extractLoop rest (fileContents ++ [contentBytes]) (fileNames ++ [file.Name])

/-- The loop `for _, file := range zipReader.File` of `processZipFile`. -/
def processLoop : List ZipEntry → List String → Except String (List String)
  | [], fileContents => .ok fileContents
  | file :: rest, fileContents =>
    if file.IsDir then processLoop rest fileContents
    else
      match file.Open with
      | .error err => .error err
      | .ok currentFile =>
        match currentFile with
        | .error err => .error err
        | .ok fileContent => processLoop rest (fileContents ++ [fileContent])

/-- The function `processZipFile`. -/
def processZipFile (zipNewReader : String → Except String (List ZipEntry))
    (content : String) : Except String (List String) :=
  match zipNewReader content with
  | .error err => .error err
  | .ok zipReader => processLoop zipReader []

/-! ## `GetTextFromFile` -/

/-- The two legacy character maps `GetTextFromFile` decodes. -/
inductive Charmap where
  | ISO8859_1
  | Windows1252
  deriving DecidableEq, Repr

/-- The library functions `GetTextFromFile` calls. -/
structure Libraries where
  /-- The string of `mimetype.Detect(content)`. -/
  mimeDetect : String → String
  /-- The entries `zip.NewReader` finds. -/
  zipNewReader : String → Except String (List ZipEntry)
  /-- The text of `docconv.ConvertDoc`. -/
  ConvertDoc : String → Except String String
  /-- The text of `docconv.ConvertDocx`. -/
  ConvertDocx : String → Except String String
  /-- The document `fitz.NewFromReader` opens, as the results of
  `fitzDoc.Text(i)` for its pages. -/
  fitzNewFromReader : String → Except String (List (Except String String))
  /-- The charset name of `detector.DetectBest(content)`. -/
  DetectBest : String → Except String String
  /-- The function `strings.ToLower`. -/
  ToLower : String → String
  /-- The result of `transform.String(enc.NewDecoder(), string(content))`. -/
  decode : Charmap → String → Except String String

/-- The page loop of the `.epub` branch: the text of page `i` with its newline
characters replaced by blanks is appended to `text`. -/
def epubLoop : List (Except String String) → Nat → String → Except String String
  | [], _, text => .ok text
  | page :: rest, i, text =>
    match page with
    | .error err => .error ("error getting text from page " ++ toString i ++ ": " ++ err)
    | .ok pageText =>
      epubLoop rest (i + 1) (text ++ pageText.map (fun c => if c = '\n' then ' ' else c))

/-- The `default` branch of `GetTextFromFile`, the one for plain text. -/
def plainText (lib : Libraries) (content : String) : Except String String :=
  match lib.DetectBest content with
  | .error err => .error ("error detecting encoding: " ++ err)
  | .ok charset =>
    if lib.ToLower charset = "utf-8" then .ok content
    else
      let decoded (enc : Charmap) : Except String String :=
        match lib.decode enc content with
        | .error err => .error ("error decoding content: " ++ err)
        | .ok text => .ok text
      if lib.ToLower charset = "iso-8859-1" then decoded .ISO8859_1
      else if lib.ToLower charset = "windows-1252" then decoded .Windows1252
      else .error ("unsupported encoding: " ++ charset)

/-- The function `GetTextFromFile`; `f` is the result of `ioutil.ReadAll(f)`. -/
def GetTextFromFile (lib : Libraries) (f : Except String String) : Except String String :=
  match f with
  | .error err => .error err
  | .ok content =>
    let contentType := lib.mimeDetect content
    if contentType = "application/zip" then
      match processZipFile lib.zipNewReader content with
      | .error err => .error ("error converting .zip file: " ++ err)
      | .ok texts => .ok (" ".intercalate texts)
    else if contentType = "application/msword" then
      match lib.ConvertDoc content with
      | .error _ => .error "error converting .doc file"
      | .ok text => .ok text
    else if contentType =
        "application/vnd.openxmlformats-officedocument.wordprocessingml.document" then
      match lib.ConvertDocx content with
      | .error err => .error ("error converting .docx file: " ++ err)
      | .ok text => .ok text
    else if contentType = "application/epub+zip" then
      match lib.fitzNewFromReader content with
      | .error err => .error ("error reading .epub file: " ++ err)
      | .ok pages => epubLoop pages 0 ""
    else plainText lib content

/-! ## Specification-level views of the loops -/

/-- The sentences the inner loop appends, each with its index: the run of
`innerLoop` over `sentences[i:]` with running count `tokenCount`, recording
`(i, sentence)` wherever the loop executes `chunkText += " " + sentence`. -/
def accumulated (maxTokens : Nat) (count : String → Nat) :
    List String → Nat → Nat → List (Nat × String)
  | [], _, _ => []
  | sentence :: rest, i, tokenCount =>
    if tokenCount < maxTokens then
      if count sentence > maxTokens then
        accumulated maxTokens count rest (i + 1) tokenCount
      else if tokenCount + count sentence ≤ maxTokens then
        (i, sentence) :: accumulated maxTokens count rest (i + 1) (tokenCount + count sentence)
      else []
    else []

/-- The indexed sentences accumulated into the window that starts at
`chunkStart`. -/
def windowSentences (maxTokens : Nat) (count : String → Nat) (sentences : List String)
    (chunkStart : Nat) : List (Nat × String) :=
  accumulated maxTokens count (sentences.drop chunkStart) chunkStart 0

/-- The concatenation of `" " + sentence` over a list of indexed sentences. -/
def joinText : List (Nat × String) → String
  | [] => ""
  | p :: ps => " " ++ p.2 ++ joinText ps

/-- The sum of the token counts of a list of indexed sentences. -/
def tokenSum (count : String → Nat) : List (Nat × String) → Nat
  | [] => 0
  | p :: ps => count p.2 + tokenSum count ps

/-- The chunk the outer loop appends for the window at `chunkStart`, if any. -/
def chunkAt (maxTokens : Nat) (count : String → Nat) (sentences : List String)
    (title : String) (chunkStart : Nat) : Option Chunk :=
  let w := window maxTokens count sentences chunkStart
  if (TrimSpace w.chunkText).length > 0 then
    some { Start := chunkStart
           End := chunkStart + w.tokenCount
           Title := title
           Text := TrimSpace w.chunkText }
  else none

/-- The values `chunkStart` takes at the head of the outer loop's iterations,
from `chunkStart` on, within `fuel` iterations. -/
def startsFrom (maxTokens : Nat) (count : String → Nat) (sentences : List String) :
    Nat → Nat → List Nat
  | 0, _ => []
  | fuel + 1, chunkStart =>
    if chunkStart < sentences.length then
      chunkStart :: startsFrom maxTokens count sentences fuel
        (chunkStart + sentenceStride (window maxTokens count sentences chunkStart))
    else []

/-- The window starts of a run of `CreateChunks`: the values of `chunkStart`
at the head of each iteration of the outer loop, in order. -/
def windowStarts (maxTokens : Nat) (count : String → Nat) (sentences : List String) :
    List Nat :=
  startsFrom maxTokens count sentences sentences.length 0

/-- The chunks the outer loop of `CreateChunks` has appended when it ends. -/
def emittedChunks (maxTokens : Nat) (count : String → Nat) (sentences : List String)
    (title : String) : List Chunk :=
  (outerLoop maxTokens count sentences title sentences.length
    { chunkStart := 0, chunks := [] }).chunks

/-- The bytes of an archive entry that opens and reads without error. -/
def ZipEntry.text (e : ZipEntry) : Option String :=
  match e.Open with
  | .ok (.ok bytes) => some bytes
  | _ => none

/-- The entries of an archive that are not directories, in archive order. -/
def fileEntries (archive : List ZipEntry) : List ZipEntry :=
  archive.filter (fun e => !e.IsDir)

/-- A string has a character that is not white space. -/
@[reducible] def hasText (s : String) : Prop := ∃ c ∈ s.data, isSpace c = false

/-- Library functions for a worked example of the plain-text branch: every
upload is typed `text/plain`, its charset is detected as `Shift_JIS`, and
`ToLower` lowers the letters A to Z. -/
def sampleLibraries : Libraries where
  mimeDetect := fun _ => "text/plain; charset=utf-8"
  zipNewReader := fun _ => .error "zip: not a valid zip file"
  ConvertDoc := fun _ => .error "not a .doc file"
  ConvertDocx := fun _ => .error "not a .docx file"
  fitzNewFromReader := fun _ => .error "not an .epub file"
  DetectBest := fun _ => .ok "Shift_JIS"
  ToLower := fun s => ⟨s.data.map Char.toLower⟩
  decode := fun _ content => .ok content

/-- A sentence of 750 characters: 749 times the character `c`, and a full
stop. -/
def longSentence (c : Char) : String := ⟨List.replicate 749 c ++ ['.']⟩

/-- An archive for a worked example: a directory entry and one text entry. -/
def sampleArchive : List ZipEntry :=
  [{ Name := "docs/", IsDir := true, Open := .ok (.ok "") },
   { Name := "docs/a.txt", IsDir := false, Open := .ok (.ok "hello") }]

/-! ## The inner loop -/

theorem innerLoop_eq (maxTokens : Nat) (count : String → Nat) (l : List String) :
    ∀ (i : Nat) (w : Window),
      innerLoop maxTokens count l w =
        { tokenCount := w.tokenCount + tokenSum count (accumulated maxTokens count l i w.tokenCount)
          chunkText := w.chunkText ++ joinText (accumulated maxTokens count l i w.tokenCount)
          chunkSentences := w.chunkSentences + (accumulated maxTokens count l i w.tokenCount).length } := by
  induction l with
  | nil => intro i w; simp [innerLoop, accumulated, tokenSum, joinText]
  | cons s rest ih =>
    intro i w
    simp only [innerLoop, accumulated]
    by_cases h1 : w.tokenCount < maxTokens
    · by_cases h2 : count s > maxTokens
      · simp only [h1, h2, if_true]
        exact ih (i + 1) w
      · by_cases h3 : w.tokenCount + count s ≤ maxTokens
        · simp only [h1, h2, h3, if_true, if_false]
          rw [ih (i + 1)]
          simp only [tokenSum, joinText, List.length_cons, String.append_assoc, Nat.add_assoc]
          congr 1
          omega
        · simp [h1, h2, h3, tokenSum, joinText]
    · simp [h1, tokenSum, joinText]

theorem window_eq (maxTokens : Nat) (count : String → Nat) (sentences : List String)
    (chunkStart : Nat) :
    window maxTokens count sentences chunkStart =
      { tokenCount := tokenSum count (windowSentences maxTokens count sentences chunkStart)
        chunkText := joinText (windowSentences maxTokens count sentences chunkStart)
        chunkSentences := (windowSentences maxTokens count sentences chunkStart).length } := by
  unfold window windowSentences
  rw [innerLoop_eq maxTokens count _ chunkStart]
  simp

theorem accumulated_mem (maxTokens : Nat) (count : String → Nat) (l : List String) :
    ∀ (i tokenCount j : Nat) (s : String),
      (j, s) ∈ accumulated maxTokens count l i tokenCount →
        i ≤ j ∧ l[j - i]? = some s ∧ count s ≤ maxTokens := by
  induction l with
  | nil => intro i tc j s h; simp [accumulated] at h
  | cons x rest ih =>
    intro i tc j s h
    simp only [accumulated] at h
    by_cases h1 : tc < maxTokens
    · by_cases h2 : count x > maxTokens
      · simp only [h1, h2, if_true] at h
        obtain ⟨hij, hget, hc⟩ := ih (i + 1) tc j s h
        refine ⟨by omega, ?_, hc⟩
        have : j - i = (j - (i + 1)) + 1 := by omega
        rw [this, List.getElem?_cons_succ]
        exact hget
      · by_cases h3 : tc + count x ≤ maxTokens
        · simp only [h1, h2, h3, if_true, if_false, List.mem_cons, Prod.mk.injEq] at h
          rcases h with ⟨rfl, rfl⟩ | h
          · refine ⟨le_refl _, by simp, by omega⟩
          · obtain ⟨hij, hget, hc⟩ := ih (i + 1) _ j s h
            refine ⟨by omega, ?_, hc⟩
            have : j - i = (j - (i + 1)) + 1 := by omega
            rw [this, List.getElem?_cons_succ]
            exact hget
        · simp [h1, h2, h3] at h
    · simp [h1] at h

theorem tokenSum_accumulated_le (maxTokens : Nat) (count : String → Nat) (l : List String) :
    ∀ (i tokenCount : Nat), tokenCount ≤ maxTokens →
      tokenCount + tokenSum count (accumulated maxTokens count l i tokenCount) ≤ maxTokens := by
  induction l with
  | nil => intro i tc h; simpa [accumulated, tokenSum] using h
  | cons x rest ih =>
    intro i tc h
    simp only [accumulated]
    by_cases h1 : tc < maxTokens
    · by_cases h2 : count x > maxTokens
      · simp only [h1, h2, if_true]
        exact ih (i + 1) tc h
      · by_cases h3 : tc + count x ≤ maxTokens
        · simp only [h1, h2, h3, if_true, if_false, tokenSum]
          have := ih (i + 1) (tc + count x) h3
          omega
        · simpa [h1, h2, h3, tokenSum] using h
    · simpa [h1, tokenSum] using h

theorem windowSentences_mem (maxTokens : Nat) (count : String → Nat) (sentences : List String)
    (chunkStart j : Nat) (s : String)
    (h : (j, s) ∈ windowSentences maxTokens count sentences chunkStart) :
    chunkStart ≤ j ∧ sentences[j]? = some s ∧ count s ≤ maxTokens := by
  obtain ⟨h1, h2, h3⟩ := accumulated_mem maxTokens count _ _ _ _ _ h
  refine ⟨h1, ?_, h3⟩
  rw [List.getElem?_drop] at h2
  have : chunkStart + (j - chunkStart) = j := by omega
  rwa [this] at h2

theorem tokenSum_windowSentences_le (maxTokens : Nat) (count : String → Nat)
    (sentences : List String) (chunkStart : Nat) :
    tokenSum count (windowSentences maxTokens count sentences chunkStart) ≤ maxTokens := by
  have := tokenSum_accumulated_le maxTokens count (sentences.drop chunkStart) chunkStart 0
    (Nat.zero_le _)
  simpa [windowSentences] using this

/-! ## The outer loop -/

theorem sentenceStride_pos (w : Window) : 1 ≤ sentenceStride w := by
  unfold sentenceStride
  split <;> omega

theorem sentenceStride_eq_max (w : Window) :
    sentenceStride w = max 1 (w.chunkSentences / 5) := by
  unfold sentenceStride
  split <;> omega

theorem outerBody_chunkStart (maxTokens : Nat) (count : String → Nat) (sentences : List String)
    (title : String) (st : LoopState) :
    (outerBody maxTokens count sentences title st).chunkStart =
      st.chunkStart + sentenceStride (window maxTokens count sentences st.chunkStart) := rfl

theorem outerBody_chunks (maxTokens : Nat) (count : String → Nat) (sentences : List String)
    (title : String) (st : LoopState) :
    (outerBody maxTokens count sentences title st).chunks =
      st.chunks ++ (chunkAt maxTokens count sentences title st.chunkStart).toList := by
  unfold outerBody chunkAt
  by_cases h : (TrimSpace (window maxTokens count sentences st.chunkStart).chunkText).length > 0
  · simp [h]
  · simp [h]

theorem outerLoop_chunks (maxTokens : Nat) (count : String → Nat) (sentences : List String)
    (title : String) :
    ∀ (fuel : Nat) (st : LoopState),
      (outerLoop maxTokens count sentences title fuel st).chunks =
        st.chunks ++ (startsFrom maxTokens count sentences fuel st.chunkStart).filterMap
          (chunkAt maxTokens count sentences title) := by
  intro fuel
  induction fuel with
  | zero => intro st; simp [outerLoop, startsFrom]
  | succ n ih =>
    intro st
    simp only [outerLoop, startsFrom]
    by_cases h : st.chunkStart < sentences.length
    · simp only [h, if_true]
      rw [ih, outerBody_chunks, outerBody_chunkStart, List.filterMap_cons]
      cases hc : chunkAt maxTokens count sentences title st.chunkStart <;> simp
    · simp [h]

theorem createChunksWith_error_iff (maxTokens : Nat) (count : String → Nat)
    (sentences : List String) (title : String) :
    createChunksWith maxTokens (.ok count) sentences title = .error "no chunks created" ↔
      (windowStarts maxTokens count sentences).filterMap
        (chunkAt maxTokens count sentences title) = [] := by
  unfold createChunksWith windowStarts
  simp only [outerLoop_chunks, List.nil_append]
  by_cases h : ((startsFrom maxTokens count sentences sentences.length 0).filterMap
      (chunkAt maxTokens count sentences title)).length = 0
  · simp only [h, if_true, true_iff]
    exact List.length_eq_zero.mp h
  · simp only [h, if_false]
    rw [List.length_eq_zero] at h
    constructor
    · intro h'; cases h'
    · intro h'; exact absurd h' h

/-! ## The window starts -/

theorem startsFrom_mem (maxTokens : Nat) (count : String → Nat) (sentences : List String) :
    ∀ (fuel chunkStart a : Nat), a ∈ startsFrom maxTokens count sentences fuel chunkStart →
      chunkStart ≤ a ∧ a < sentences.length := by
  intro fuel
  induction fuel with
  | zero => intro cs a h; simp [startsFrom] at h
  | succ n ih =>
    intro cs a h
    simp only [startsFrom] at h
    by_cases hlt : cs < sentences.length
    · simp only [hlt, if_true, List.mem_cons] at h
      rcases h with rfl | h
      · exact ⟨le_refl _, hlt⟩
      · have := ih _ _ h
        exact ⟨by omega, this.2⟩
    · simp [hlt] at h

theorem startsFrom_length_le (maxTokens : Nat) (count : String → Nat) (sentences : List String) :
    ∀ (fuel chunkStart : Nat),
      (startsFrom maxTokens count sentences fuel chunkStart).length ≤
        sentences.length - chunkStart := by
  intro fuel
  induction fuel with
  | zero => intro cs; simp [startsFrom]
  | succ n ih =>
    intro cs
    simp only [startsFrom]
    by_cases hlt : cs < sentences.length
    · simp only [hlt, if_true, List.length_cons]
      have h1 := ih (cs + sentenceStride (window maxTokens count sentences cs))
      have h2 := sentenceStride_pos (window maxTokens count sentences cs)
      omega
    · simp [hlt]

theorem startsFrom_chain (maxTokens : Nat) (count : String → Nat) (sentences : List String) :
    ∀ (fuel chunkStart : Nat),
      List.Chain' (fun a b => b = a + sentenceStride (window maxTokens count sentences a))
        (startsFrom maxTokens count sentences fuel chunkStart) := by
  intro fuel
  induction fuel with
  | zero => intro cs; simp [startsFrom]
  | succ n ih =>
    intro cs
    simp only [startsFrom]
    by_cases hlt : cs < sentences.length
    · simp only [hlt, if_true]
      rw [List.chain'_cons']
      refine ⟨?_, ih _⟩
      intro b hb
      cases n with
      | zero => simp [startsFrom] at hb
      | succ m =>
        simp only [startsFrom] at hb
        split at hb
        · simp at hb; exact hb.symm
        · simp at hb
    · simp [hlt]

theorem windowSentences_self (maxTokens : Nat) (count : String → Nat)
    (sentences : List String) (j : Nat) (s : String) (hpos : 0 < maxTokens)
    (hget : sentences[j]? = some s) (hfit : count s ≤ maxTokens) :
    (j, s) ∈ windowSentences maxTokens count sentences j := by
  have hlt : j < sentences.length := by
    rcases Nat.lt_or_ge j sentences.length with h | h
    · exact h
    · rw [List.getElem?_eq_none h] at hget; cases hget
  have hs : sentences[j] = s := by
    rw [List.getElem?_eq_getElem hlt] at hget
    exact Option.some.inj hget
  unfold windowSentences
  rw [List.drop_eq_getElem_cons hlt, hs]
  simp only [accumulated]
  have h2 : ¬ count s > maxTokens := by omega
  simp [hpos, h2, hfit]

theorem accumulated_prefix (maxTokens : Nat) (count : String → Nat) (l : List String) :
    ∀ (i tokenCount j : Nat) (s : String), i ≤ j → l[j - i]? = some s →
      count s ≤ maxTokens →
      j - i < (accumulated maxTokens count l i tokenCount).length →
      (j, s) ∈ accumulated maxTokens count l i tokenCount := by
  induction l with
  | nil => intro i tc j s _ _ _ h; simp [accumulated] at h
  | cons x rest ih =>
    intro i tc j s hij hget hfit hlen
    simp only [accumulated] at hlen ⊢
    by_cases h1 : tc < maxTokens
    · by_cases h2 : count x > maxTokens
      · simp only [h1, h2, if_true] at hlen ⊢
        have hne : j ≠ i := by
          rintro rfl
          simp at hget
          subst hget
          omega
        have hj : j - i = (j - (i + 1)) + 1 := by omega
        rw [hj, List.getElem?_cons_succ] at hget
        exact ih (i + 1) tc j s (by omega) hget hfit (by omega)
      · by_cases h3 : tc + count x ≤ maxTokens
        · simp only [h1, h2, h3, if_true, if_false, List.length_cons, List.mem_cons,
            Prod.mk.injEq] at hlen ⊢
          by_cases hji : j = i
          · subst hji
            simp at hget
            exact Or.inl ⟨rfl, hget.symm⟩
          · have hj : j - i = (j - (i + 1)) + 1 := by omega
            rw [hj, List.getElem?_cons_succ] at hget
            exact Or.inr (ih (i + 1) _ j s (by omega) hget hfit (by omega))
        · simp [h1, h2, h3] at hlen
    · simp [h1] at hlen

theorem windowSentences_prefix (maxTokens : Nat) (count : String → Nat)
    (sentences : List String) (chunkStart j : Nat) (s : String)
    (hle : chunkStart ≤ j) (hget : sentences[j]? = some s) (hfit : count s ≤ maxTokens)
    (hlen : j - chunkStart < (windowSentences maxTokens count sentences chunkStart).length) :
    (j, s) ∈ windowSentences maxTokens count sentences chunkStart := by
  unfold windowSentences at hlen ⊢
  apply accumulated_prefix maxTokens count _ _ _ _ _ hle _ hfit hlen
  rw [List.getElem?_drop]
  have : chunkStart + (j - chunkStart) = j := by omega
  rwa [this]

theorem startsFrom_covers (maxTokens : Nat) (count : String → Nat) (sentences : List String)
    (hpos : 0 < maxTokens) :
    ∀ (fuel chunkStart : Nat), sentences.length - chunkStart ≤ fuel →
      ∀ (j : Nat) (s : String), chunkStart ≤ j → sentences[j]? = some s →
        count s ≤ maxTokens →
        ∃ a ∈ startsFrom maxTokens count sentences fuel chunkStart,
          (j, s) ∈ windowSentences maxTokens count sentences a := by
  intro fuel
  induction fuel with
  | zero =>
    intro cs hfuel j s hle hget _
    have hlt : j < sentences.length := by
      rcases Nat.lt_or_ge j sentences.length with h | h
      · exact h
      · rw [List.getElem?_eq_none h] at hget; cases hget
    omega
  | succ n ih =>
    intro cs hfuel j s hle hget hfit
    have hlt : j < sentences.length := by
      rcases Nat.lt_or_ge j sentences.length with h | h
      · exact h
      · rw [List.getElem?_eq_none h] at hget; cases hget
    have hcs : cs < sentences.length := by omega
    simp only [startsFrom, hcs, if_true, List.mem_cons, exists_eq_or_imp]
    have hstride := sentenceStride_pos (window maxTokens count sentences cs)
    by_cases hj : j < cs + sentenceStride (window maxTokens count sentences cs)
    · left
      by_cases hjc : j = cs
      · subst hjc
        exact windowSentences_self maxTokens count sentences j s hpos hget hfit
      · apply windowSentences_prefix maxTokens count sentences cs j s hle hget hfit
        have hk : (window maxTokens count sentences cs).chunkSentences =
            (windowSentences maxTokens count sentences cs).length := by
          rw [window_eq]
        unfold sentenceStride at hj
        rw [hk] at hj
        split at hj <;> omega
    · right
      exact ih _ (by omega) j s (by omega) hget hfit

/-! ## Trimming -/

theorem dropWhile_append_keep (p : Char → Bool) (c : Char) (t b : List Char)
    (hc : p c = false) :
    ∀ a : List Char, ∃ a', List.dropWhile p (a ++ (c :: t ++ b)) = a' ++ (c :: t ++ b) := by
  intro a
  induction a with
  | nil => exact ⟨[], by simp [List.dropWhile, hc]⟩
  | cons x xs ih =>
    by_cases hx : p x = true
    · obtain ⟨a', ha'⟩ := ih
      refine ⟨a', ?_⟩
      rw [List.cons_append, List.dropWhile_cons_of_pos hx]
      exact ha'
    · exact ⟨x :: xs, by simp [List.dropWhile, hx]⟩

theorem within_trimChars (t x : List Char) (c d : Char) (t' r : List Char)
    (ht : t = c :: t') (hc : isSpace c = false) (hr : t.reverse = d :: r)
    (hd : isSpace d = false) (hinf : t <:+: x) : t <:+: trimChars x := by
  obtain ⟨a, b, hx⟩ := hinf
  subst hx
  unfold trimChars
  obtain ⟨a', ha'⟩ := dropWhile_append_keep isSpace c t' b hc a
  have h1 : List.dropWhile isSpace (a ++ t ++ b) = a' ++ (t ++ b) := by
    rw [List.append_assoc, ht]
    exact ha'
  rw [h1]
  have h2 : (a' ++ (t ++ b)).reverse = b.reverse ++ (d :: r ++ a'.reverse) := by
    simp [List.reverse_append, hr]
  rw [h2]
  obtain ⟨b', hb'⟩ := dropWhile_append_keep isSpace d r a'.reverse hd b.reverse
  rw [hb']
  refine ⟨a', b'.reverse, ?_⟩
  have h3 : (d :: r).reverse = t := by
    rw [← hr, List.reverse_reverse]
  simp only [List.reverse_append, List.reverse_reverse]
  rw [h3]

theorem trimChars_shape (l : List Char) (h : ∃ c ∈ l, isSpace c = false) :
    ∃ (c d : Char) (t' r : List Char), trimChars l = c :: t' ∧ isSpace c = false ∧
      (trimChars l).reverse = d :: r ∧ isSpace d = false := by
  obtain ⟨x, hxl, hx⟩ := h
  have hd1 : List.dropWhile isSpace l ≠ [] := by
    intro hnil
    have := (List.dropWhile_eq_nil_iff.mp hnil) x hxl
    rw [hx] at this
    cases this
  obtain ⟨c, u, hcu⟩ := List.exists_cons_of_ne_nil hd1
  have hc : isSpace c = false := by
    have := List.head?_dropWhile_not isSpace l
    rw [hcu] at this
    simpa using this
  have he : List.dropWhile isSpace (List.dropWhile isSpace l).reverse ≠ [] := by
    intro hnil
    have := (List.dropWhile_eq_nil_iff.mp hnil) c (by rw [hcu]; simp)
    rw [hc] at this
    cases this
  obtain ⟨d, r, hdr⟩ := List.exists_cons_of_ne_nil he
  have hd : isSpace d = false := by
    have := List.head?_dropWhile_not isSpace (List.dropWhile isSpace l).reverse
    rw [hdr] at this
    simpa using this
  obtain ⟨pre, hpre⟩ := List.dropWhile_suffix (l := (List.dropWhile isSpace l).reverse) isSpace
  have hrev : List.dropWhile isSpace l = (d :: r).reverse ++ pre.reverse := by
    have := congrArg List.reverse hpre
    rw [List.reverse_reverse, List.reverse_append, hdr] at this
    exact this.symm
  have hne : (d :: r).reverse ≠ [] := by simp
  obtain ⟨c', t', hct⟩ := List.exists_cons_of_ne_nil hne
  have hcc : c' = c := by
    rw [hcu, hct] at hrev
    simp at hrev
    exact hrev.1.symm
  refine ⟨c, d, t', r, ?_, hc, ?_, hd⟩
  · unfold trimChars
    rw [hdr, hct, hcc]
  · unfold trimChars
    rw [hdr, List.reverse_reverse]

theorem trimChars_within (l : List Char) : trimChars l <:+: l := by
  unfold trimChars
  obtain ⟨pre, hpre⟩ := List.dropWhile_suffix (l := (List.dropWhile isSpace l).reverse) isSpace
  obtain ⟨pre2, hpre2⟩ := List.dropWhile_suffix (l := l) isSpace
  refine ⟨pre2, pre.reverse, ?_⟩
  have := congrArg List.reverse hpre
  rw [List.reverse_reverse, List.reverse_append] at this
  rw [List.append_assoc, this, hpre2]

theorem sentence_within_joinText (acc : List (Nat × String)) (j : Nat) (s : String)
    (h : (j, s) ∈ acc) : s.data <:+: (joinText acc).data := by
  induction acc with
  | nil => simp at h
  | cons p ps ih =>
    simp only [joinText, String.data_append]
    rcases List.mem_cons.mp h with rfl | h
    · exact ⟨" ".data, (joinText ps).data, rfl⟩
    · obtain ⟨a, b, hab⟩ := ih h
      refine ⟨" ".data ++ p.2.data ++ a, b, ?_⟩
      rw [← hab]
      simp [List.append_assoc]

theorem trimmed_sentence_within (acc : List (Nat × String)) (j : Nat) (s : String)
    (h : (j, s) ∈ acc) (htext : hasText s) :
    (TrimSpace s).data <:+: (TrimSpace (joinText acc)).data ∧
      (TrimSpace (joinText acc)).length > 0 := by
  obtain ⟨c, d, t', r, h1, hc, h2, hd⟩ := trimChars_shape s.data htext
  have hinf : trimChars s.data <:+: (joinText acc).data :=
    List.IsInfix.trans (trimChars_within s.data) (sentence_within_joinText acc j s h)
  have key := within_trimChars (trimChars s.data) (joinText acc).data c d t' r h1 hc h2 hd hinf
  refine ⟨key, ?_⟩
  show (trimChars (joinText acc).data).length > 0
  have := List.IsInfix.length_le key
  rw [h1] at this
  simp at this
  omega

/-! ## Iterations of the outer loop -/

theorem outerLoop_iterate (maxTokens : Nat) (count : String → Nat) (sentences : List String)
    (title : String) :
    ∀ (fuel : Nat) (st : LoopState), sentences.length - st.chunkStart ≤ fuel →
      ∃ n, n ≤ sentences.length - st.chunkStart ∧
        outerLoop maxTokens count sentences title fuel st =
          (outerBody maxTokens count sentences title)^[n] st ∧
        (∀ m, m < n →
          ((outerBody maxTokens count sentences title)^[m] st).chunkStart < sentences.length) ∧
        sentences.length ≤ ((outerBody maxTokens count sentences title)^[n] st).chunkStart := by
  intro fuel
  induction fuel with
  | zero =>
    intro st h
    exact ⟨0, Nat.zero_le _, rfl, fun m hm => absurd hm (Nat.not_lt_zero m), by simp; omega⟩
  | succ k ih =>
    intro st h
    by_cases hlt : st.chunkStart < sentences.length
    · have hstep := outerBody_chunkStart maxTokens count sentences title st
      have hpos := sentenceStride_pos (window maxTokens count sentences st.chunkStart)
      obtain ⟨n, hn, heq, hbefore, hafter⟩ :=
        ih (outerBody maxTokens count sentences title st) (by omega)
      refine ⟨n + 1, by omega, ?_, ?_, ?_⟩
      · simp only [outerLoop, hlt, if_true, Function.iterate_succ_apply]
        exact heq
      · intro m hm
        cases m with
        | zero => simpa using hlt
        | succ m' =>
          rw [Function.iterate_succ_apply]
          exact hbefore m' (by omega)
      · rw [Function.iterate_succ_apply]
        exact hafter
    · refine ⟨0, Nat.zero_le _, ?_, fun m hm => absurd hm (Nat.not_lt_zero m), ?_⟩
      · simp [outerLoop, hlt]
      · simp; omega

theorem emittedChunks_eq (maxTokens : Nat) (count : String → Nat) (sentences : List String)
    (title : String) :
    emittedChunks maxTokens count sentences title =
      (windowStarts maxTokens count sentences).filterMap
        (chunkAt maxTokens count sentences title) := by
  unfold emittedChunks windowStarts
  rw [outerLoop_chunks]
  rfl

theorem createChunksWith_eq (maxTokens : Nat) (count : String → Nat)
    (sentences : List String) (title : String) :
    createChunksWith maxTokens (.ok count) sentences title =
      if (emittedChunks maxTokens count sentences title).length = 0 then
        .error "no chunks created"
      else .ok (emittedChunks maxTokens count sentences title) := rfl

theorem mem_emittedChunks (maxTokens : Nat) (count : String → Nat) (sentences : List String)
    (title : String) (c : Chunk) :
    c ∈ emittedChunks maxTokens count sentences title ↔
      c.Start ∈ windowStarts maxTokens count sentences ∧
        chunkAt maxTokens count sentences title c.Start = some c := by
  rw [emittedChunks_eq, List.mem_filterMap]
  constructor
  · rintro ⟨a, ha, hc⟩
    have hs : c.Start = a := by
      unfold chunkAt at hc
      simp only at hc
      split at hc
      · cases hc; rfl
      · cases hc
    rw [hs]
    exact ⟨ha, hc⟩
  · rintro ⟨h1, h2⟩
    exact ⟨c.Start, h1, h2⟩

theorem chunkAt_some (maxTokens : Nat) (count : String → Nat) (sentences : List String)
    (title : String) (a : Nat) (c : Chunk)
    (h : chunkAt maxTokens count sentences title a = some c) :
    c.Start = a ∧
      c.End = a + tokenSum count (windowSentences maxTokens count sentences a) ∧
      c.Title = title ∧
      c.Text = TrimSpace (joinText (windowSentences maxTokens count sentences a)) ∧
      c.Text.length > 0 := by
  unfold chunkAt at h
  simp only [window_eq] at h
  split at h
  · rename_i hlen
    cases h
    exact ⟨rfl, rfl, rfl, rfl, hlen⟩
  · cases h

theorem chunkAt_of_mem (maxTokens : Nat) (count : String → Nat) (sentences : List String)
    (title : String) (a j : Nat) (s : String)
    (hmem : (j, s) ∈ windowSentences maxTokens count sentences a) (htext : hasText s) :
    chunkAt maxTokens count sentences title a =
      some { Start := a
             End := a + (window maxTokens count sentences a).tokenCount
             Title := title
             Text := TrimSpace (window maxTokens count sentences a).chunkText } := by
  have h := (trimmed_sentence_within _ j s hmem htext).2
  unfold chunkAt
  simp only [window_eq] at h ⊢
  simp [h]

theorem emitted_of_ok (maxTokens : Nat) (count : String → Nat) (sentences : List String)
    (title : String) (chunks : List Chunk)
    (hok : createChunksWith maxTokens (.ok count) sentences title = .ok chunks) :
    chunks = emittedChunks maxTokens count sentences title ∧ chunks ≠ [] := by
  rw [createChunksWith_eq] at hok
  split at hok
  · cases hok
  · rename_i hne
    cases hok
    exact ⟨rfl, fun h => hne (by rw [h]; rfl)⟩

theorem innerLoop_budget_spent (maxTokens : Nat) (count : String → Nat) (l : List String)
    (w : Window) (h : ¬ w.tokenCount < maxTokens) : innerLoop maxTokens count l w = w := by
  cases l with
  | nil => rfl
  | cons s rest => simp [innerLoop, h]

theorem accumulated_all_oversized (maxTokens : Nat) (count : String → Nat) (l : List String)
    (h : ∀ s ∈ l, maxTokens < count s) :
    ∀ (i tokenCount : Nat), accumulated maxTokens count l i tokenCount = [] := by
  induction l with
  | nil => intro i tc; rfl
  | cons x rest ih =>
    intro i tc
    have hx : count x > maxTokens := h x (List.mem_cons_self _ _)
    simp only [accumulated, hx, if_true]
    rw [ih (fun s hs => h s (List.mem_cons_of_mem _ hs))]
    simp

theorem chunkAt_all_oversized (maxTokens : Nat) (count : String → Nat)
    (sentences : List String) (title : String) (h : ∀ s ∈ sentences, maxTokens < count s)
    (a : Nat) : chunkAt maxTokens count sentences title a = none := by
  have hacc : windowSentences maxTokens count sentences a = [] :=
    accumulated_all_oversized maxTokens count _
      (fun s hs => h s (List.mem_of_mem_drop hs)) _ _
  unfold chunkAt
  simp only [window_eq, hacc, joinText]
  rfl

theorem exists_chunk_of_fitting (maxTokens : Nat) (count : String → Nat)
    (sentences : List String) (title : String) (j : Nat) (s : String)
    (hpos : 0 < maxTokens) (hget : sentences[j]? = some s) (hfit : count s ≤ maxTokens)
    (htext : hasText s) :
    ∃ chunks, createChunksWith maxTokens (.ok count) sentences title = .ok chunks ∧
      ∃ c ∈ chunks, (j, s) ∈ windowSentences maxTokens count sentences c.Start ∧
        (TrimSpace s).data <:+: c.Text.data := by
  obtain ⟨a, ha, hmem⟩ := startsFrom_covers maxTokens count sentences hpos
    sentences.length 0 (by simp) j s (Nat.zero_le _) hget hfit
  have hchunk := chunkAt_of_mem maxTokens count sentences title a j s hmem htext
  have hin : (⟨a, a + (window maxTokens count sentences a).tokenCount, title,
      TrimSpace (window maxTokens count sentences a).chunkText⟩ : Chunk) ∈
      emittedChunks maxTokens count sentences title := by
    rw [mem_emittedChunks]
    exact ⟨ha, hchunk⟩
  refine ⟨emittedChunks maxTokens count sentences title, ?_, _, hin, hmem, ?_⟩
  · rw [createChunksWith_eq]
    have hne : (emittedChunks maxTokens count sentences title).length ≠ 0 := by
      intro h0
      rw [List.length_eq_zero] at h0
      rw [h0] at hin
      cases hin
    simp [hne]
  · have := (trimmed_sentence_within _ j s hmem htext).1
    simpa [window_eq] using this

theorem filterMap_eq_map_of {α β : Type} (f : α → Option β) (g : α → β) (l : List α)
    (h : ∀ a ∈ l, f a = some (g a)) : l.filterMap f = l.map g := by
  induction l with
  | nil => rfl
  | cons x xs ih =>
    rw [List.filterMap_cons, h x (List.mem_cons_self _ _)]
    simp only [List.map_cons]
    rw [ih (fun a ha => h a (List.mem_cons_of_mem _ ha))]

theorem emittedChunks_all_fit (maxTokens : Nat) (count : String → Nat)
    (sentences : List String) (title : String) (hpos : 0 < maxTokens)
    (hall : ∀ s ∈ sentences, hasText s ∧ count s ≤ maxTokens) :
    emittedChunks maxTokens count sentences title =
      (windowStarts maxTokens count sentences).map (fun a =>
        { Start := a
          End := a + (window maxTokens count sentences a).tokenCount
          Title := title
          Text := TrimSpace (window maxTokens count sentences a).chunkText }) := by
  rw [emittedChunks_eq]
  apply filterMap_eq_map_of
  intro a ha
  have hlt := (startsFrom_mem maxTokens count sentences _ _ _ ha).2
  have hget : sentences[a]? = some sentences[a] := List.getElem?_eq_getElem hlt
  have hs := hall _ (List.getElem_mem hlt)
  exact chunkAt_of_mem maxTokens count sentences title a a _
    (windowSentences_self maxTokens count sentences a _ hpos hget hs.2) hs.1

/-! ## The chunker's contract -/

/-- C1, the token bound, evaluated where the code breaks it. With a counter
of one token per character, two sentences of 750 characters count 750 tokens
each; the inner loop accepts both, since 750 + 750 ≤ 1500, and the chunk's
`End - Start` is 1500. The chunk's `Text` joins them with a blank that the
budget never counted: it has 1501 characters, so its token count, 1501, is
above `MaxTokensPerChunk`. -/
theorem token_bound_failing_input :
    CreateChunks (.ok String.length) [longSentence 'a', longSentence 'b'] "t" =
        .ok [⟨0, 1500, "t", longSentence 'a' ++ " " ++ longSentence 'b'⟩,
             ⟨1, 751, "t", longSentence 'b'⟩] ∧
      String.length (longSentence 'a') = 750 ∧
      String.length (longSentence 'b') = 750 ∧
      String.length (longSentence 'a' ++ " " ++ longSentence 'b') = 1501 ∧
      ¬ String.length (longSentence 'a' ++ " " ++ longSentence 'b') ≤ MaxTokensPerChunk := by
  decide!

/-- C3: every emitted chunk's text is the trimmed concatenation of sentences
of the sequence that each count at most `max_tokens`; a sentence at an index
whose count exceeds `max_tokens` is in no window's accumulated sentences; and
the inner loop passes over such a sentence and goes on with the sentences
after it, its variables unchanged. -/
theorem createChunks_excludes_oversized (maxTokens : Nat) (count : String → Nat)
    (sentences : List String) (title : String) (chunks : List Chunk)
    (hok : createChunksWith maxTokens (.ok count) sentences title = .ok chunks) :
    (∀ c ∈ chunks,
      c.Text = TrimSpace (joinText (windowSentences maxTokens count sentences c.Start)) ∧
      ∀ p ∈ windowSentences maxTokens count sentences c.Start,
        sentences[p.1]? = some p.2 ∧ count p.2 ≤ maxTokens) ∧
    (∀ (j : Nat) (s : String), sentences[j]? = some s → maxTokens < count s →
      ∀ (chunkStart : Nat), ∀ p ∈ windowSentences maxTokens count sentences chunkStart,
        p.1 ≠ j) ∧
    (∀ (s : String) (rest : List String) (w : Window), maxTokens < count s →
      innerLoop maxTokens count (s :: rest) w = innerLoop maxTokens count rest w) := by
  refine ⟨?_, ?_, ?_⟩
  · intro c hc
    rw [(emitted_of_ok _ _ _ _ _ hok).1, mem_emittedChunks] at hc
    refine ⟨(chunkAt_some _ _ _ _ _ _ hc.2).2.2.2.1, ?_⟩
    rintro ⟨j, s⟩ hp
    exact (windowSentences_mem _ _ _ _ _ _ hp).2
  · rintro j s hget hbig chunkStart ⟨i, t⟩ hp hij
    have h := windowSentences_mem _ _ _ _ _ _ hp
    simp only at hij
    rw [hij, hget] at h
    have : s = t := Option.some.inj h.2.1
    rw [this] at hbig
    omega
  · intro s rest w hbig
    by_cases h : w.tokenCount < maxTokens
    · simp [innerLoop, h, hbig]
    · rw [innerLoop_budget_spent _ _ _ _ h, innerLoop_budget_spent _ _ _ _ h]

/-- C3, an instance: a 9-token sentence between two 1-token sentences, with a
maximum of 3, is left out of all three chunks and does not end the first one. -/
theorem createChunks_excludes_oversized_witness :
    createChunksWith 3 (.ok fun s => if s = "Long." then 9 else 1)
        ["A.", "Long.", "B."] "t" =
        .ok [⟨0, 2, "t", "A. B."⟩, ⟨1, 2, "t", "B."⟩, ⟨2, 3, "t", "B."⟩] ∧
      ∀ (chunkStart : Nat),
        ∀ p ∈ windowSentences 3 (fun s => if s = "Long." then 9 else 1)
          ["A.", "Long.", "B."] chunkStart, p.1 ≠ 1 :=
  ⟨by decide,
   (createChunks_excludes_oversized 3 (fun s => if s = "Long." then 9 else 1)
      ["A.", "Long.", "B."] "t" [⟨0, 2, "t", "A. B."⟩, ⟨1, 2, "t", "B."⟩, ⟨2, 3, "t", "B."⟩]
      (by decide)).2.1 1 "Long." (by decide) (by decide)⟩

/-- C4: when there is no sentence, or every sentence counts more than
`max_tokens`, `CreateChunks` fails with "no chunks created" (an error result
carries no chunk list); and a successful result is never the empty list. -/
theorem createChunks_no_chunks (maxTokens : Nat) (count : String → Nat)
    (sentences : List String) (title : String) :
    ((sentences = [] ∨ ∀ s ∈ sentences, maxTokens < count s) →
      createChunksWith maxTokens (.ok count) sentences title =
        .error "no chunks created") ∧
    (∀ (tiktoken : Except String (String → Nat)) (chunks : List Chunk),
      createChunksWith maxTokens tiktoken sentences title = .ok chunks → chunks ≠ []) := by
  constructor
  · intro h
    rw [createChunksWith_error_iff]
    rcases h with h | h
    · subst h
      rfl
    · rw [List.filterMap_eq_nil_iff]
      intro a _
      exact chunkAt_all_oversized maxTokens count sentences title h a
  · intro tiktoken chunks hok
    cases tiktoken with
    | error err => simp [createChunksWith] at hok
    | ok cnt => exact (emitted_of_ok _ _ _ _ _ hok).2

/-- C4, the example of the specification: one sentence of 5000 tokens, and no
other, with the maximum of 1500. -/
theorem createChunks_no_chunks_witness :
    CreateChunks (.ok fun _ => 5000) ["One very long sentence."] "t" =
      .error "no chunks created" :=
  (createChunks_no_chunks 1500 (fun _ => 5000) ["One very long sentence."] "t").1
    (Or.inr (by decide))

/-- C5: every iteration of the outer loop moves `chunkStart`, which starts at
0, forward by at least 1; over `N` sentences the loop ends after some
`n ≤ N` iterations (the loop condition holds before each of them and fails
after the last), its result is the `n`-fold iterate of the loop body, and at
most `N` chunks are emitted. -/
theorem createChunks_terminates (maxTokens : Nat) (count : String → Nat)
    (sentences : List String) (title : String) :
    (∀ st : LoopState,
      st.chunkStart + 1 ≤ (outerBody maxTokens count sentences title st).chunkStart) ∧
    (∃ n, n ≤ sentences.length ∧
      outerLoop maxTokens count sentences title sentences.length
          { chunkStart := 0, chunks := [] } =
        (outerBody maxTokens count sentences title)^[n] { chunkStart := 0, chunks := [] } ∧
      (∀ m, m < n →
        ((outerBody maxTokens count sentences title)^[m]
          { chunkStart := 0, chunks := [] }).chunkStart < sentences.length) ∧
      sentences.length ≤
        ((outerBody maxTokens count sentences title)^[n]
          { chunkStart := 0, chunks := [] }).chunkStart) ∧
    (emittedChunks maxTokens count sentences title).length ≤ sentences.length ∧
    (∀ chunks : List Chunk,
      createChunksWith maxTokens (.ok count) sentences title = .ok chunks →
        chunks.length ≤ sentences.length) := by
  have hlen : (emittedChunks maxTokens count sentences title).length ≤ sentences.length := by
    rw [emittedChunks_eq]
    have h1 := List.length_filterMap_le (chunkAt maxTokens count sentences title)
      (windowStarts maxTokens count sentences)
    have h2 := startsFrom_length_le maxTokens count sentences sentences.length 0
    unfold windowStarts at h1 ⊢
    omega
  refine ⟨?_, ?_, hlen, ?_⟩
  · intro st
    rw [outerBody_chunkStart]
    have := sentenceStride_pos (window maxTokens count sentences st.chunkStart)
    omega
  · obtain ⟨n, hn, h1, h2, h3⟩ := outerLoop_iterate maxTokens count sentences title
      sentences.length { chunkStart := 0, chunks := [] } (by simp)
    exact ⟨n, by simpa using hn, h1, h2, h3⟩
  · intro chunks hok
    rw [(emitted_of_ok _ _ _ _ _ hok).1]
    exact hlen

/-- C6: every emitted chunk has as `Start` the sentence index at which its
window began and as `End` that index plus the sum of the token counts of the
sentences accumulated into the window; so `Start ≤ End ≤ Start + max_tokens`. -/
theorem chunk_boundary_fields (maxTokens : Nat) (count : String → Nat)
    (sentences : List String) (title : String) (chunks : List Chunk) (c : Chunk)
    (hok : createChunksWith maxTokens (.ok count) sentences title = .ok chunks)
    (hc : c ∈ chunks) :
    c.Start ∈ windowStarts maxTokens count sentences ∧
      c.Start < sentences.length ∧
      c.End = c.Start + tokenSum count (windowSentences maxTokens count sentences c.Start) ∧
      c.Start ≤ c.End ∧ c.End ≤ c.Start + maxTokens := by
  rw [(emitted_of_ok _ _ _ _ _ hok).1, mem_emittedChunks] at hc
  have h := chunkAt_some _ _ _ _ _ _ hc.2
  have hb := tokenSum_windowSentences_le maxTokens count sentences c.Start
  have hs := startsFrom_mem maxTokens count sentences _ _ _ hc.1
  refine ⟨hc.1, hs.2, h.2.1, ?_, ?_⟩ <;> rw [h.2.1] <;> omega

/-- C6, an instance: the second chunk of four 2-token sentences with a
maximum of 5 starts at sentence 1 and ends at 1 + 4. -/
theorem chunk_boundary_fields_witness :
    createChunksWith 5 (.ok fun _ => 2) ["Aa.", "Bb.", "Cc.", "Dd."] "t" =
        .ok [⟨0, 4, "t", "Aa. Bb."⟩, ⟨1, 5, "t", "Bb. Cc."⟩, ⟨2, 6, "t", "Cc. Dd."⟩,
             ⟨3, 5, "t", "Dd."⟩] ∧
      1 ∈ windowStarts 5 (fun _ => 2) ["Aa.", "Bb.", "Cc.", "Dd."] ∧
      1 < ["Aa.", "Bb.", "Cc.", "Dd."].length ∧
      5 = 1 + tokenSum (fun _ => 2)
        (windowSentences 5 (fun _ => 2) ["Aa.", "Bb.", "Cc.", "Dd."] 1) ∧
      1 ≤ 5 ∧ 5 ≤ 1 + 5 :=
  ⟨by decide,
   chunk_boundary_fields 5 (fun _ => 2) ["Aa.", "Bb.", "Cc.", "Dd."] "t"
      [⟨0, 4, "t", "Aa. Bb."⟩, ⟨1, 5, "t", "Bb. Cc."⟩, ⟨2, 6, "t", "Cc. Dd."⟩,
       ⟨3, 5, "t", "Dd."⟩] ⟨1, 5, "t", "Bb. Cc."⟩ (by decide) (by decide)⟩

/-- C2 (as amended): when `max_tokens` is positive and at least one sentence
counts at most `max_tokens` and has a character that is not white space,
`CreateChunks` succeeds and returns at least one chunk. -/
theorem createChunks_coverage (maxTokens : Nat) (count : String → Nat)
    (sentences : List String) (title : String) (hpos : 0 < maxTokens)
    (h : ∃ s ∈ sentences, count s ≤ maxTokens ∧ hasText s) :
    ∃ chunks, createChunksWith maxTokens (.ok count) sentences title = .ok chunks ∧
      1 ≤ chunks.length := by
  obtain ⟨s, hs, hfit, htext⟩ := h
  obtain ⟨j, hj, hget⟩ := List.getElem_of_mem hs
  have hget' : sentences[j]? = some s := by
    rw [List.getElem?_eq_getElem hj, hget]
  obtain ⟨chunks, hok, c, hc, _⟩ :=
    exists_chunk_of_fitting maxTokens count sentences title j s hpos hget' hfit htext
  refine ⟨chunks, hok, ?_⟩
  cases chunks with
  | nil => cases hc
  | cons x xs => simp

/-- C2, an instance: a blank sentence and a 1-token sentence, maximum 1500. -/
theorem createChunks_coverage_witness :
    ∃ chunks, CreateChunks (.ok fun _ => 1) [" ", "Hi."] "t" = .ok chunks ∧
      1 ≤ chunks.length :=
  createChunks_coverage 1500 (fun _ => 1) [" ", "Hi."] "t" (by decide)
    ⟨"Hi.", by decide, by decide, 'H', by decide, by decide⟩

/-- C2, as stated, fails: the sequence of the one sentence " ", which counts
1 token, is not empty and its sentence fits the maximum of 1500, yet
`CreateChunks` fails with "no chunks created". -/
theorem coverage_counterexample :
    [" "] ≠ ([] : List String) ∧
      (∃ s ∈ [" "], (fun _ : String => 1) s ≤ MaxTokensPerChunk) ∧
      CreateChunks (.ok fun _ => 1) [" "] "t" = .error "no chunks created" := by
  refine ⟨by decide, ⟨" ", by decide, by decide⟩, by decide⟩

/-- C9: when `max_tokens` is positive and every sentence has a character that
is not white space and counts at most `max_tokens`, the emitted chunks are one
per window, in order (their `Start`s are the window starts); for a non-empty
sequence `CreateChunks` returns them and the first has `Start = 0`; and each
following chunk has `Start = previous Start + max(1, k / 5)`, `k` being the
value of `chunkSentences` for the previous chunk's window, the number of
sentences accumulated into it. -/
theorem stride_rule (maxTokens : Nat) (count : String → Nat)
    (sentences : List String) (title : String) (hpos : 0 < maxTokens)
    (hall : ∀ s ∈ sentences, hasText s ∧ count s ≤ maxTokens) :
    (emittedChunks maxTokens count sentences title).map (fun c => c.Start) =
        windowStarts maxTokens count sentences ∧
      (sentences ≠ [] →
        createChunksWith maxTokens (.ok count) sentences title =
            .ok (emittedChunks maxTokens count sentences title) ∧
          (emittedChunks maxTokens count sentences title).head?.map (fun c => c.Start) =
            some 0) ∧
      List.Chain' (fun c c' => c'.Start = c.Start +
          max 1 ((window maxTokens count sentences c.Start).chunkSentences / 5))
        (emittedChunks maxTokens count sentences title) ∧
      (∀ c ∈ emittedChunks maxTokens count sentences title,
        (window maxTokens count sentences c.Start).chunkSentences =
          (windowSentences maxTokens count sentences c.Start).length) := by
  have hem := emittedChunks_all_fit maxTokens count sentences title hpos hall
  have hstarts : (emittedChunks maxTokens count sentences title).map (fun c => c.Start) =
      windowStarts maxTokens count sentences := by
    rw [hem, List.map_map]
    exact List.map_id _
  refine ⟨hstarts, ?_, ?_, ?_⟩
  · intro hne
    obtain ⟨x, xs, hx⟩ := List.exists_cons_of_ne_nil hne
    have hws : ∃ rest, windowStarts maxTokens count sentences = 0 :: rest := by
      unfold windowStarts
      rw [hx]
      simp [startsFrom]
    obtain ⟨rest, hrest⟩ := hws
    constructor
    · rw [createChunksWith_eq]
      have : (emittedChunks maxTokens count sentences title).length ≠ 0 := by
        rw [hem, hrest]
        simp
      simp [this]
    · rw [← List.head?_map, hstarts, hrest]
      rfl
  · have hchain := startsFrom_chain maxTokens count sentences sentences.length 0
    rw [hem, List.chain'_map]
    simp only [← sentenceStride_eq_max]
    exact hchain
  · intro c _
    rw [window_eq]

/-- C9, the example of the specification: six sentences of 1 token each with
a maximum of 3 give six chunks, the first "A. B. C." at 0, the next at 1, with
`Start`s 0, 1, 2, 3, 4, 5. -/
theorem stride_rule_witness :
    createChunksWith 3 (.ok fun _ => 1) ["A.", "B.", "C.", "D.", "E.", "F."] "t" =
        .ok [⟨0, 3, "t", "A. B. C."⟩, ⟨1, 4, "t", "B. C. D."⟩, ⟨2, 5, "t", "C. D. E."⟩,
             ⟨3, 6, "t", "D. E. F."⟩, ⟨4, 6, "t", "E. F."⟩, ⟨5, 6, "t", "F."⟩] ∧
      windowStarts 3 (fun _ => 1) ["A.", "B.", "C.", "D.", "E.", "F."] = [0, 1, 2, 3, 4, 5] ∧
      (emittedChunks 3 (fun _ => 1) ["A.", "B.", "C.", "D.", "E.", "F."] "t").map
          (fun c => c.Start) =
        windowStarts 3 (fun _ => 1) ["A.", "B.", "C.", "D.", "E.", "F."] :=
  ⟨by decide, by decide,
   (stride_rule 3 (fun _ => 1) ["A.", "B.", "C.", "D.", "E.", "F."] "t" (by decide)
      (by decide)).1⟩

/-- C10: when `max_tokens` is positive, a sentence at index `j` that counts
at most `max_tokens` is among the sentences accumulated into the window of at
least one iteration of the outer loop; and if it has a character that is not
white space, `CreateChunks` succeeds and some returned chunk has it among its
accumulated sentences and its trimmed text inside the chunk's `Text`. -/
theorem fitting_sentence_kept (maxTokens : Nat) (count : String → Nat)
    (sentences : List String) (title : String) (j : Nat) (s : String)
    (hpos : 0 < maxTokens) (hget : sentences[j]? = some s) (hfit : count s ≤ maxTokens) :
    (∃ a ∈ windowStarts maxTokens count sentences,
      (j, s) ∈ windowSentences maxTokens count sentences a) ∧
    (hasText s →
      ∃ chunks, createChunksWith maxTokens (.ok count) sentences title = .ok chunks ∧
        ∃ c ∈ chunks, (j, s) ∈ windowSentences maxTokens count sentences c.Start ∧
          (TrimSpace s).data <:+: c.Text.data) :=
  ⟨startsFrom_covers maxTokens count sentences hpos sentences.length 0 (by simp) j s
      (Nat.zero_le _) hget hfit,
   exists_chunk_of_fitting maxTokens count sentences title j s hpos hget hfit⟩

/-- C10, an instance with a stride of 2: of twelve 1-token sentences with a
maximum of 10 the first window holds ten, the next one starts at sentence 2,
and sentence 1, which no window starts at, is in the first window. -/
theorem fitting_sentence_kept_witness :
    windowStarts 10 (fun _ => 1)
        ["a.", "b.", "c.", "d.", "e.", "f.", "g.", "h.", "i.", "j.", "k.", "l."] =
        [0, 2, 4, 5, 6, 7, 8, 9, 10, 11] ∧
      ∃ a ∈ windowStarts 10 (fun _ => 1)
          ["a.", "b.", "c.", "d.", "e.", "f.", "g.", "h.", "i.", "j.", "k.", "l."],
        (1, "b.") ∈ windowSentences 10 (fun _ => 1)
          ["a.", "b.", "c.", "d.", "e.", "f.", "g.", "h.", "i.", "j.", "k.", "l."] a :=
  ⟨by decide,
   (fitting_sentence_kept 10 (fun _ => 1)
      ["a.", "b.", "c.", "d.", "e.", "f.", "g.", "h.", "i.", "j.", "k.", "l."] "t" 1 "b."
      (by decide) (by decide) (by decide)).1⟩

/-! ## Archive extraction -/

theorem processLoop_ok (l : List ZipEntry) :
    ∀ (acc r : List String), processLoop l acc = .ok r →
      ∃ texts, r = acc ++ texts ∧ texts.map some = (fileEntries l).map ZipEntry.text := by
  induction l with
  | nil =>
    intro acc r h
    simp only [processLoop, Except.ok.injEq] at h
    exact ⟨[], by simp [h], rfl⟩
  | cons e rest ih =>
    intro acc r h
    simp only [processLoop] at h
    cases hdir : e.IsDir with
    | true =>
      simp only [hdir, if_true] at h
      obtain ⟨texts, h1, h2⟩ := ih acc r h
      exact ⟨texts, h1, by simp [fileEntries, hdir] at h2 ⊢; exact h2⟩
    | false =>
      simp only [hdir, Bool.false_eq_true, if_false] at h
      cases hopen : e.Open with
      | error err => simp [hopen] at h
      | ok stream =>
        cases stream with
        | error err => simp [hopen] at h
        | ok bytes =>
          simp only [hopen] at h
          obtain ⟨texts, h1, h2⟩ := ih _ r h
          refine ⟨bytes :: texts, by simp [h1], ?_⟩
          simp only [fileEntries, List.filter_cons, hdir, Bool.not_false, if_true,
            List.map_cons, ZipEntry.text, hopen]
          simp only [fileEntries] at h2
          rw [h2]

theorem processLoop_error (l : List ZipEntry) :
    ∀ (acc : List String), (∃ e ∈ l, e.IsDir = false ∧ e.text = none) →
      ∃ err, processLoop l acc = .error err := by
  induction l with
  | nil => intro acc h; obtain ⟨e, he, _⟩ := h; cases he
  | cons e rest ih =>
    intro acc h
    simp only [processLoop]
    cases hdir : e.IsDir with
    | true =>
      simp only [if_true]
      apply ih
      obtain ⟨x, hx, hxd, hxt⟩ := h
      rcases List.mem_cons.mp hx with rfl | hx
      · rw [hdir] at hxd; cases hxd
      · exact ⟨x, hx, hxd, hxt⟩
    | false =>
      simp only [Bool.false_eq_true, if_false]
      cases hopen : e.Open with
      | error err => exact ⟨err, rfl⟩
      | ok stream =>
        cases stream with
        | error err => exact ⟨err, rfl⟩
        | ok bytes =>
          simp only
          apply ih
          obtain ⟨x, hx, hxd, hxt⟩ := h
          rcases List.mem_cons.mp hx with rfl | hx
          · simp [ZipEntry.text, hopen] at hxt
          · exact ⟨x, hx, hxd, hxt⟩

theorem processLoop_succeeds (l : List ZipEntry) :
    ∀ (acc : List String), (∀ e ∈ l, e.IsDir = false → e.text ≠ none) →
      ∃ r, processLoop l acc = .ok r := by
  induction l with
  | nil => intro acc _; exact ⟨acc, rfl⟩
  | cons e rest ih =>
    intro acc h
    have hrest : ∀ x ∈ rest, x.IsDir = false → x.text ≠ none :=
      fun x hx => h x (List.mem_cons_of_mem _ hx)
    simp only [processLoop]
    cases hdir : e.IsDir with
    | true => simpa using ih acc hrest
    | false =>
      simp only [Bool.false_eq_true, if_false]
      have he := h e (List.mem_cons_self _ _) hdir
      cases hopen : e.Open with
      | error err => simp [ZipEntry.text, hopen] at he
      | ok stream =>
        cases stream with
        | error err => simp [ZipEntry.text, hopen] at he
        | ok bytes => exact ih _ hrest

theorem extractLoop_eq (l : List ZipEntry) :
    ∀ (cs ns : List String),
      extractLoop l cs ns =
        match processLoop l cs with
        | .ok r => .ok (r, ns ++ (fileEntries l).map (fun e => e.Name))
        | .error err => .error err := by
  induction l with
  | nil => intro cs ns; simp [extractLoop, processLoop, fileEntries]
  | cons e rest ih =>
    intro cs ns
    simp only [extractLoop, processLoop]
    cases hdir : e.IsDir with
    | true =>
      simp only [if_true]
      rw [ih]
      simp [fileEntries, hdir]
    | false =>
      simp only [Bool.false_eq_true, if_false]
      cases hopen : e.Open with
      | error err => rfl
      | ok stream =>
        cases stream with
        | error err => rfl
        | ok bytes =>
          simp only
          rw [ih]
          simp [fileEntries, hdir]

/-- C7: for an archive given as its list of entries, `processZipFile` and the
body of `ExtractFilesFromZip` succeed exactly when every entry that is not a
directory opens and reads without error; the texts returned are then the
bytes of those entries, one per entry and in archive order, and the names
`ExtractFilesFromZip` returns are their names, index by index; when some such
entry fails, both return an error, which carries no list. -/
theorem zip_extraction (zipNewReader : String → Except String (List ZipEntry))
    (content : String) (archive : List ZipEntry)
    (hopen : zipNewReader content = .ok archive) :
    ((∃ texts, processZipFile zipNewReader content = .ok texts) ↔
      ∀ e ∈ archive, e.IsDir = false → e.text ≠ none) ∧
    ((∃ r, extractLoop archive [] [] = .ok r) ↔
      ∀ e ∈ archive, e.IsDir = false → e.text ≠ none) ∧
    (∀ texts, processZipFile zipNewReader content = .ok texts →
      texts.map some = (fileEntries archive).map ZipEntry.text) ∧
    (∀ texts names, extractLoop archive [] [] = .ok (texts, names) →
      texts.map some = (fileEntries archive).map ZipEntry.text ∧
      names = (fileEntries archive).map (fun e => e.Name) ∧
      texts.length = names.length) ∧
    ((∃ e ∈ archive, e.IsDir = false ∧ e.text = none) →
      (∃ err, processZipFile zipNewReader content = .error err) ∧
      (∃ err, extractLoop archive [] [] = .error err)) := by
  have hp : processZipFile zipNewReader content = processLoop archive [] := by
    simp [processZipFile, hopen]
  have hx : extractLoop archive [] [] =
      match processLoop archive [] with
      | .ok r => .ok (r, (fileEntries archive).map (fun e => e.Name))
      | .error err => .error err := by
    simp [extractLoop_eq]
  have hiff : (∃ texts, processLoop archive [] = .ok texts) ↔
      ∀ e ∈ archive, e.IsDir = false → e.text ≠ none := by
    constructor
    · rintro ⟨texts, h⟩ e he hd ht
      obtain ⟨err, herr⟩ := processLoop_error archive [] ⟨e, he, hd, ht⟩
      rw [h] at herr
      cases herr
    · exact processLoop_succeeds archive []
  rw [hp, hx]
  refine ⟨hiff, ?_, ?_, ?_, ?_⟩
  · rw [← hiff]
    constructor
    · rintro ⟨r, h⟩
      cases hpl : processLoop archive [] with
      | error err => rw [hpl] at h; cases h
      | ok texts => exact ⟨texts, rfl⟩
    · rintro ⟨texts, h⟩
      rw [h]
      exact ⟨_, rfl⟩
  · intro texts h
    obtain ⟨t, h1, h2⟩ := processLoop_ok archive [] texts h
    rw [h1]
    simpa using h2
  · intro texts names h
    cases hpl : processLoop archive [] with
    | error err => rw [hpl] at h; cases h
    | ok r =>
      rw [hpl] at h
      simp only [Except.ok.injEq, Prod.mk.injEq] at h
      obtain ⟨rfl, rfl⟩ := h
      obtain ⟨t, h1, h2⟩ := processLoop_ok archive [] r hpl
      have hmap : r.map some = (fileEntries archive).map ZipEntry.text := by
        rw [h1]
        simpa using h2
      refine ⟨hmap, rfl, ?_⟩
      have := congrArg List.length hmap
      simpa using this
  · intro h
    obtain ⟨err, herr⟩ := processLoop_error archive [] h
    rw [herr]
    exact ⟨⟨err, rfl⟩, ⟨err, rfl⟩⟩

/-- C7, the example of the specification: an archive of one directory entry
and one text entry yields exactly one (name, text) pair. -/
theorem zip_extraction_witness :
    extractLoop sampleArchive [] [] = .ok (["hello"], ["docs/a.txt"]) ∧
      processZipFile (fun _ => .ok sampleArchive) "PK" = .ok ["hello"] ∧
      ((∃ r, extractLoop sampleArchive [] [] = .ok r) ↔
        ∀ e ∈ sampleArchive, e.IsDir = false → e.text ≠ none) :=
  ⟨by decide, by decide,
   (zip_extraction (fun _ => .ok sampleArchive) "PK" sampleArchive rfl).2.1⟩

/-! ## The plain-text branch -/

/-- C8: in the plain-text branch of `GetTextFromFile`, when the lower-cased
name of the detected charset is none of `utf-8`, `iso-8859-1` and
`windows-1252`, the call fails with "unsupported encoding: " followed by the
detected name (an error result carries no text), whatever the content. -/
theorem unsupported_encoding (lib : Libraries) (content charset : String)
    (hmime : lib.mimeDetect content ∉
      ["application/zip", "application/msword",
       "application/vnd.openxmlformats-officedocument.wordprocessingml.document",
       "application/epub+zip"])
    (hdet : lib.DetectBest content = .ok charset)
    (h1 : lib.ToLower charset ≠ "utf-8")
    (h2 : lib.ToLower charset ≠ "iso-8859-1")
    (h3 : lib.ToLower charset ≠ "windows-1252") :
    plainText lib content = .error ("unsupported encoding: " ++ charset) ∧
      GetTextFromFile lib (.ok content) = .error ("unsupported encoding: " ++ charset) := by
  have hplain : plainText lib content = .error ("unsupported encoding: " ++ charset) := by
    simp [plainText, hdet, h1, h2, h3]
  refine ⟨hplain, ?_⟩
  simp only [List.mem_cons, List.mem_singleton, not_or, List.mem_nil_iff, or_false] at hmime
  obtain ⟨m1, m2, m3, m4⟩ := hmime
  simp [GetTextFromFile, m1, m2, m3, m4, hplain]

/-- C8, an instance: content detected as `Shift_JIS` is refused by name. -/
theorem unsupported_encoding_witness :
    GetTextFromFile sampleLibraries (.ok "konnichiwa") =
      .error "unsupported encoding: Shift_JIS" :=
  (unsupported_encoding sampleLibraries "konnichiwa" "Shift_JIS" (by decide) rfl
    (by decide) (by decide) (by decide)).2

end VaultAI
